import Mathlib

/-!
Shallow embedding of `src/2022/13/main.rs` (nested integer/list values,
explicit-stack line parser, three-way comparator, pair loader, printer),
together with theorems settling the specification claims.

Conventions:
* Rust `usize` values are modelled as `Nat` (the program only ever adds,
  multiplies by 10 and compares them; no overflow is reachable for the
  inputs considered, and the spec treats magnitudes as unbounded).
* Bytes are modelled as `Nat` (91 = left bracket, 93 = right bracket,
  44 = comma, 10 = newline, 48..57 = ASCII digits).
* Every `panic!`, failing `assert!` and `Option::unwrap` on `None`
  becomes an explicit `Except.error` with a constructor naming the
  Rust failure site.
-/

/-- Rust `enum Item { Integer(usize), List(Box<Vec<Item>>) }`. -/
inductive Item : Type where
  | Integer : Nat → Item
  | List : List Item → Item

/-- Discriminator for the `List` variant. -/
def Item.isList : Item → Bool
  | .Integer _ => false
  | .List _ => true

mutual

/-- Structural size of an `Item` (termination measure only). -/
def itemSize : Item → Nat
  | .Integer _ => 1
  | .List xs => 1 + itemSizeL xs

/-- Structural size of a list of `Item`s (termination measure only). -/
def itemSizeL : List Item → Nat
  | [] => 0
  | x :: xs => itemSize x + itemSizeL xs

end

theorem itemSize_pos (a : Item) : 1 ≤ itemSize a := by
  cases a <;> simp [itemSize]

/-- Rust `usize::cmp` (`x.cmp(y)` on unsigned integers). -/
def natCmp (x y : Nat) : Ordering :=
  if x < y then .lt else if x = y then .eq else .gt

mutual

/-- Rust `impl Ord for Item`, `fn cmp` (main.rs lines 26-57).
The two promotion arms build the singleton list and re-enter the
`List`/`List` arm, whose element loop is `cmpLists`; the equations
`Item.cmp (.Integer x) (.List ys) = Item.cmp (.List [.Integer x]) (.List ys)`
(and symmetrically) hold definitionally, see `cmp_promoteL`/`cmp_promoteR`. -/
def Item.cmp : Item → Item → Ordering
  | .Integer x, .Integer y => natCmp x y
  | .Integer x, .List ys => cmpLists [Item.Integer x] ys
  | .List xs, .Integer y => cmpLists xs [Item.Integer y]
  | .List xs, .List ys => cmpLists xs ys
termination_by a b => 2 * (itemSize a + itemSize b)
decreasing_by
  all_goals simp [itemSize, itemSizeL]; omega

/-- The element loop of the `List`/`List` arm of `Item::cmp`
(main.rs lines 43-52): first non-`Equal` element decides, otherwise
the lengths are compared (a run-out list is shorter). -/
def cmpLists : List Item → List Item → Ordering
  | [], [] => .eq
  | [], _ :: _ => .lt
  | _ :: _, [] => .gt
  | x :: xs, y :: ys =>
    match Item.cmp x y with
    | .eq => cmpLists xs ys
    | c => c
termination_by xs ys => 2 * (itemSizeL xs + itemSizeL ys) + 1
decreasing_by
  · simp [itemSize, itemSizeL]; omega
  · simp [itemSize, itemSizeL]
    have hx := itemSize_pos x
    have hy := itemSize_pos y
    omega

end

/-- The panic / failed-assertion / failed-unwrap sites of `load`
(main.rs lines 66-143).  Each constructor names one fatal condition. -/
inductive PErr : Type where
  /-- `assert!(digit < 10)` fails (main.rs line 100): byte is not a
  bracket, comma, newline or ASCII digit. -/
  | badByte : PErr
  /-- `assert!(integer_bytes == 0)` fails at a `[` (main.rs line 96). -/
  | digitBeforeBracket : PErr
  /-- `stack.pop().unwrap()` or `stack.last_mut().unwrap()` on an empty
  stack (main.rs lines 83, 111, 112). -/
  | emptyStack : PErr
  /-- `panic!()` in a match arm that found an `Item::Integer` stack
  frame (main.rs lines 85, 114). -/
  | integerFrame : PErr
  /-- `assert_eq!(stack.len(), 1)` fails after a line (main.rs line 124). -/
  | badDepth : PErr
  /-- `problem.last_mut().unwrap()` on an empty problem (main.rs line 133). -/
  | noPair : PErr
deriving DecidableEq, Repr

/-- The per-line mutable state of `load`: the explicit parse stack
(head = top of the Rust `Vec`) and the integer accumulator
(`integer_bytes`, `integer_value`, main.rs lines 75-76). -/
structure PState : Type where
  stack : List Item
  integer_bytes : Nat
  integer_value : Nat

/-- The `']' | ',' | '\n'` arm of the first match (main.rs lines 81-94):
if the accumulator is non-empty, append `Integer(integer_value)` to the
top stack frame (panicking if that frame is an `Integer`, or if the
stack is empty); in all cases reset the accumulator. -/
def flushInt (st : PState) : Except PErr PState :=
  if st.integer_bytes ≠ 0 then
    match st.stack with
    | [] => .error .emptyStack
    | .Integer _ :: _ => .error .integerFrame
    | .List x :: rest => .ok ⟨.List (x ++ [.Integer st.integer_value]) :: rest, 0, 0⟩
  else .ok ⟨st.stack, 0, 0⟩

/-- The `']'` arm of the second match (main.rs lines 110-120): pop the
just-closed list and append it to the new top frame (panicking if the
stack underflows or the receiving frame is an `Integer`). -/
def closeBracket (st : PState) : Except PErr PState :=
  match st.stack with
  | [] => .error .emptyStack
  | child :: rest =>
    match rest with
    | [] => .error .emptyStack
    | .Integer _ :: _ => .error .integerFrame
    | .List x :: rest2 =>
        .ok ⟨.List (x ++ [child]) :: rest2, st.integer_bytes, st.integer_value⟩

/-- One byte of the scan loop of `load` (main.rs lines 79-123): the two
sequential `match ch` blocks.  Byte values: 91 = `[`, 93 = `]`,
44 = `,`, 10 = newline, 48..57 = digits. -/
def pstep (st : PState) (ch : Nat) : Except PErr PState :=
  if ch = 93 ∨ ch = 44 ∨ ch = 10 then
    match flushInt st with
    | .error e => .error e
    | .ok st1 => if ch = 93 then closeBracket st1 else .ok st1
  else if ch = 91 then
    if st.integer_bytes = 0 then
      .ok ⟨.List [] :: st.stack, st.integer_bytes, st.integer_value⟩
    else .error .digitBeforeBracket
  else if 48 ≤ ch ∧ ch ≤ 57 then
    .ok ⟨st.stack, st.integer_bytes + 1, st.integer_value * 10 + (ch - 48)⟩
  else .error .badByte

/-- Run the scan loop over a byte sequence, propagating the first
fatal condition. -/
def runBytes : PState → List Nat → Except PErr PState
  | st, [] => .ok st
  | st, ch :: rest =>
    match pstep st ch with
    | .error e => .error e
    | .ok st1 => runBytes st1 rest

/-- The state at the start of each line: empty accumulator and a stack
holding the one empty sentinel list pushed by main.rs line 78. -/
def pInit : PState := ⟨[.List []], 0, 0⟩

/-- Processing of one full line inside `load` (main.rs lines 75-124):
push the sentinel frame, scan every byte, then require exactly one
frame to remain (`assert_eq!(stack.len(), 1)`) and yield it.  The
yielded frame is the sentinel list, whose sole element (when the line
is a well-formed bracketed list) is the parsed top-level list. -/
def finishLine (fin : PState) : Except PErr Item :=
  match fin.stack with
  | [top] => .ok top
  | _ => .error .badDepth

def processLine (line : List Nat) : Except PErr Item :=
  match runBytes pInit line with
  | .error e => .error e
  | .ok fin => finishLine fin

/-- Rust `struct Pair { left: Item, right: Item }`. -/
structure Pair : Type where
  left : Item
  right : Item

/-- Rust `type Problem = Vec<Pair>`. -/
def Problem : Type := List Pair

/-- `problem.last_mut().unwrap().right = v` (main.rs line 133):
replace the `right` of the last pair; `none` models the unwrap panic
on an empty problem. -/
def setLastRight : List Pair → Item → Option (List Pair)
  | [], _ => none
  | [p], v => some [⟨p.left, v⟩]
  | p :: q :: rest, v => (setLastRight (q :: rest) v).map (p :: ·)

/-- The line loop of `load` (main.rs lines 72-141): `ln` is the value
of `line_number` before the current line is read (it is incremented
first, main.rs line 73).  `line_number % 3 = 1` starts a new pair with
an empty-list placeholder `right`; `= 2` fills the last pair's `right`;
`= 0` parses the line and discards the value (main.rs lines 125-138). -/
def loadGo : List Pair → Nat → List (List Nat) → Except PErr (List Pair)
  | problem, _, [] => .ok problem
  | problem, ln, l :: rest =>
    match processLine l with
    | .error e => .error e
    | .ok v =>
      match (ln + 1) % 3 with
      | 1 => loadGo (problem ++ [⟨v, .List []⟩]) (ln + 1) rest
      | 2 =>
        match setLastRight problem v with
        | none => .error .noPair
        | some p2 => loadGo p2 (ln + 1) rest
      | _ => loadGo problem (ln + 1) rest

/-- Rust `fn load` (main.rs lines 66-143), abstracted over the byte
lines the `BufReader` yields. -/
def loadLines (lines : List (List Nat)) : Except PErr (List Pair) :=
  loadGo [] 0 lines

/-- Decimal rendering of a `usize` by Rust `print!("{}", x)`:
most-significant digit first, `0` rendered as `[48]`. -/
def decDigits (n : Nat) : List Nat :=
  if h : n < 10 then [48 + n] else decDigits (n / 10) ++ [48 + n % 10]
termination_by n
decreasing_by exact Nat.div_lt_self (by omega) (by omega)

mutual

/-- Rust `fn print_item` (main.rs lines 163-174) as a byte sequence:
an `Integer` prints its decimal digits, a `List` prints `[`, its
comma-joined elements, `]`. -/
def print_item : Item → List Nat
  | .Integer x => decDigits x
  | .List xs => 91 :: (printElems xs ++ [93])
termination_by it => 2 * itemSize it
decreasing_by simp [itemSize]; omega

/-- The loop body of Rust `fn print_list` on a `List` argument
(main.rs lines 150-159): elements printed by `print_item`, separated
by commas (the `first` flag). -/
def printElems : List Item → List Nat
  | [] => []
  | [x] => print_item x
  | x :: y :: rest => print_item x ++ (44 :: printElems (y :: rest))
termination_by xs => 2 * itemSizeL xs + 1
decreasing_by
  all_goals simp [itemSizeL]
  all_goals try omega
  all_goals have hx1 := itemSize_pos x
  all_goals omega

end

/-- Rust `fn print_list` (main.rs lines 145-161): `none` models the
`panic!()` on an `Integer` argument (main.rs line 148). -/
def print_list : Item → Option (List Nat)
  | .Integer _ => none
  | .List xs => some (printElems xs)

/-- The bytes the first `match ch` of `load` accepts without a fatal
condition: brackets, comma, newline and ASCII digits. -/
def allowedByte (ch : Nat) : Bool :=
  ch = 91 || ch = 93 || ch = 44 || ch = 10 || (48 ≤ ch && ch ≤ 57)

theorem natCmp_swap (x y : Nat) : natCmp x y = (natCmp y x).swap := by
  simp only [natCmp]
  rcases Nat.lt_trichotomy x y with h | h | h
  · rw [if_pos h, if_neg (by omega), if_neg (by omega)]; rfl
  · subst h; simp [Ordering.swap]
  · rw [if_neg (by omega), if_neg (by omega), if_pos h]; rfl

theorem natCmp_succ (a b : Nat) : natCmp (a + 1) (b + 1) = natCmp a b := by
  simp only [natCmp, Nat.add_lt_add_iff_right, Nat.add_right_cancel_iff]

/-- The promotion arm `Integer`/`List` of `Item::cmp` (main.rs lines
33-36) agrees with first building the singleton list. -/
theorem cmp_promoteL (x : Nat) (ys : List Item) :
    Item.cmp (.Integer x) (.List ys) = Item.cmp (.List [.Integer x]) (.List ys) := by
  simp [Item.cmp]

/-- The promotion arm `List`/`Integer` of `Item::cmp` (main.rs lines
39-42) agrees with first building the singleton list. -/
theorem cmp_promoteR (xs : List Item) (y : Nat) :
    Item.cmp (.List xs) (.Integer y) = Item.cmp (.List xs) (.List [.Integer y]) := by
  simp [Item.cmp]

theorem cmpSwapAux : ∀ n : Nat,
    (∀ a b : Item, 2 * (itemSize a + itemSize b) ≤ n →
      Item.cmp a b = (Item.cmp b a).swap) ∧
    (∀ xs ys : List Item, 2 * (itemSizeL xs + itemSizeL ys) + 1 ≤ n →
      cmpLists xs ys = (cmpLists ys xs).swap) := by
  intro n
  induction n using Nat.strong_induction_on with
  | _ n ih =>
    constructor
    · intro a b h
      cases a with
      | Integer x =>
        cases b with
        | Integer y => simpa [Item.cmp] using natCmp_swap x y
        | List ys =>
          simp only [Item.cmp]
          have hm : 2 * (itemSizeL [Item.Integer x] + itemSizeL ys) + 1 < n := by
            simp only [itemSize, itemSizeL] at h ⊢; omega
          exact (ih _ hm).2 [Item.Integer x] ys (le_refl _)
      | List xs =>
        cases b with
        | Integer y =>
          simp only [Item.cmp]
          have hm : 2 * (itemSizeL xs + itemSizeL [Item.Integer y]) + 1 < n := by
            simp only [itemSize, itemSizeL] at h ⊢; omega
          exact (ih _ hm).2 xs [Item.Integer y] (le_refl _)
        | List ys =>
          simp only [Item.cmp]
          have hm : 2 * (itemSizeL xs + itemSizeL ys) + 1 < n := by
            simp only [itemSize, itemSizeL] at h ⊢; omega
          exact (ih _ hm).2 xs ys (le_refl _)
    · intro xs ys h
      cases xs with
      | nil =>
        cases ys with
        | nil => simp [cmpLists, Ordering.swap]
        | cons y ys => simp [cmpLists, Ordering.swap]
      | cons x xs =>
        cases ys with
        | nil => simp [cmpLists, Ordering.swap]
        | cons y ys =>
          have hx := itemSize_pos x
          have hy := itemSize_pos y
          have h1 : Item.cmp x y = (Item.cmp y x).swap := by
            have hm : 2 * (itemSize x + itemSize y) < n := by
              simp only [itemSizeL] at h; omega
            exact (ih _ hm).1 x y (le_refl _)
          have h2 : cmpLists xs ys = (cmpLists ys xs).swap := by
            have hm : 2 * (itemSizeL xs + itemSizeL ys) + 1 < n := by
              simp only [itemSizeL] at h; omega
            exact (ih _ hm).2 xs ys (le_refl _)
          simp only [cmpLists]
          rw [h1]
          cases hc : Item.cmp y x <;> simp [Ordering.swap, h2]

/-- `Item::cmp` is antisymmetric: swapping the arguments swaps the
verdict. -/
theorem itemCmp_swap (a b : Item) : Item.cmp a b = (Item.cmp b a).swap :=
  (cmpSwapAux _).1 a b (le_refl _)

/-- `Item::cmp` is reflexive. -/
theorem itemCmp_self (a : Item) : Item.cmp a a = .eq := by
  have h := itemCmp_swap a a
  cases hc : Item.cmp a a <;> rw [hc] at h <;> simp [Ordering.swap] at h

/-- First index with a non-`Equal` element verdict decides
`cmpLists`. -/
theorem cmpLists_index : ∀ (xs ys : List Item) (i : Nat) (d : Item),
    i < xs.length → i < ys.length →
    (∀ j, j < i → Item.cmp (xs.getD j d) (ys.getD j d) = .eq) →
    Item.cmp (xs.getD i d) (ys.getD i d) ≠ .eq →
    cmpLists xs ys = Item.cmp (xs.getD i d) (ys.getD i d) := by
  intro xs
  induction xs with
  | nil => intro ys i d hx; simp at hx
  | cons x xs ihx =>
    intro ys i d hx hy hj hne
    cases ys with
    | nil => simp at hy
    | cons y ys =>
      cases i with
      | zero =>
        simp only [List.getD_cons_zero] at hne ⊢
        simp only [cmpLists]
      | succ k =>
        have h0 : Item.cmp x y = .eq := by simpa using hj 0 (Nat.succ_pos k)
        simp only [List.getD_cons_succ] at hne ⊢
        simp only [cmpLists, h0]
        exact ihx ys k d (by simpa using hx) (by simpa using hy)
          (fun j hjk => by simpa using hj (j + 1) (by omega)) hne

/-- If all shared-index element verdicts are `Equal`, `cmpLists`
compares the lengths. -/
theorem cmpLists_allEq : ∀ (xs ys : List Item) (d : Item),
    (∀ j, j < min xs.length ys.length →
      Item.cmp (xs.getD j d) (ys.getD j d) = .eq) →
    cmpLists xs ys = natCmp xs.length ys.length := by
  intro xs
  induction xs with
  | nil =>
    intro ys d h
    cases ys <;> simp [cmpLists, natCmp]
  | cons x xs ihx =>
    intro ys d h
    cases ys with
    | nil => simp [cmpLists, natCmp]
    | cons y ys =>
      have h0 : Item.cmp x y = .eq := by
        simpa using h 0 (by simp)
      simp only [cmpLists, h0, List.length_cons]
      rw [ihx ys d (fun j hjm => by
        simpa using h (j + 1) (by simp at hjm ⊢; omega))]
      exact (natCmp_succ _ _).symm

theorem runBytes_append (as bs : List Nat) : ∀ st : PState,
    runBytes st (as ++ bs) =
      match runBytes st as with
      | .error e => .error e
      | .ok st1 => runBytes st1 bs := by
  induction as with
  | nil => intro st; simp [runBytes]
  | cons a as iha =>
    intro st
    simp only [List.cons_append, runBytes]
    cases pstep st a <;> simp [iha]

theorem pstep_digit (st : PState) (ch : Nat) (h1 : 48 ≤ ch) (h2 : ch ≤ 57) :
    pstep st ch =
      .ok ⟨st.stack, st.integer_bytes + 1, st.integer_value * 10 + (ch - 48)⟩ := by
  unfold pstep
  rw [if_neg (by omega), if_neg (by omega), if_pos ⟨h1, h2⟩]

/-- Scanning the decimal digits of `n` never touches the stack: it only
accumulates into `integer_bytes` / `integer_value` (main.rs lines 98-104). -/
theorem runBytes_decDigits : ∀ (n : Nat) (st : PState),
    runBytes st (decDigits n) =
      .ok ⟨st.stack, st.integer_bytes + (decDigits n).length,
           st.integer_value * 10 ^ (decDigits n).length + n⟩ := by
  intro n
  induction n using Nat.strong_induction_on with
  | _ n ih =>
    intro st
    by_cases h : n < 10
    · have hd : decDigits n = [48 + n] := by rw [decDigits]; simp [h]
      rw [hd]
      simp only [runBytes]
      rw [pstep_digit st (48 + n) (by omega) (by omega)]
      simp only [runBytes, List.length_cons, List.length_nil]
      have h48 : 48 + n - 48 = n := by omega
      rw [h48, pow_one]
    · have hd : decDigits n = decDigits (n / 10) ++ [48 + n % 10] := by
        rw [decDigits]; rw [dif_neg h]
      rw [hd, runBytes_append]
      rw [ih (n / 10) (Nat.div_lt_self (by omega) (by omega)) st]
      simp only [runBytes]
      rw [pstep_digit _ _ (by omega) (by omega)]
      simp only [runBytes, List.length_append, List.length_cons, List.length_nil,
        Nat.zero_add]
      simp only [Except.ok.injEq, PState.mk.injEq]
      refine ⟨trivial, by omega, ?_⟩
      have h48 : 48 + n % 10 - 48 = n % 10 := by omega
      rw [h48, Nat.pow_succ, ← Nat.mul_assoc]
      generalize (10 : Nat) ^ (decDigits (n / 10)).length = k
      generalize st.integer_value * k = u
      omega

theorem decDigits_length_pos (n : Nat) : 1 ≤ (decDigits n).length := by
  by_cases h : n < 10
  · rw [decDigits]; simp [h]
  · rw [decDigits]; rw [dif_neg h]; simp

theorem runBytes_cons_ok (st : PState) (ch : Nat) (bs : List Nat) (st1 : PState)
    (h : pstep st ch = .ok st1) : runBytes st (ch :: bs) = runBytes st1 bs := by
  simp [runBytes, h]

theorem runBytes_append_ok (as bs : List Nat) (st st1 : PState)
    (h : runBytes st as = .ok st1) :
    runBytes st (as ++ bs) = runBytes st1 bs := by
  rw [runBytes_append, h]

/-- A `]` with an empty accumulator: no flush, pop and append. -/
theorem pstep_rb (c d rest : List Item) :
    pstep ⟨.List c :: .List d :: rest, 0, 0⟩ 93 =
      .ok ⟨.List (d ++ [.List c]) :: rest, 0, 0⟩ := by
  simp [pstep, flushInt, closeBracket]

/-- A `]` with a pending integer: flush it into the top frame, then pop
and append. -/
theorem pstep_rb_flush (c d rest : List Item) (b v : Nat) (hb : b ≠ 0) :
    pstep ⟨.List c :: .List d :: rest, b, v⟩ 93 =
      .ok ⟨.List (d ++ [.List (c ++ [.Integer v])]) :: rest, 0, 0⟩ := by
  simp [pstep, flushInt, hb, closeBracket]

/-- A `,` with an empty accumulator changes nothing. -/
theorem pstep_comma (stk : List Item) :
    pstep ⟨stk, 0, 0⟩ 44 = .ok ⟨stk, 0, 0⟩ := by
  simp [pstep, flushInt]

/-- A `,` with a pending integer flushes it into the top frame. -/
theorem pstep_comma_flush (c : List Item) (rest2 : List Item) (b v : Nat)
    (hb : b ≠ 0) :
    pstep ⟨.List c :: rest2, b, v⟩ 44 =
      .ok ⟨.List (c ++ [.Integer v]) :: rest2, 0, 0⟩ := by
  simp [pstep, flushInt, hb]

/-- A `[` with an empty accumulator pushes a fresh empty frame. -/
theorem pstep_lb (stk : List Item) (v : Nat) :
    pstep ⟨stk, 0, v⟩ 91 = .ok ⟨.List [] :: stk, 0, v⟩ := by
  simp [pstep]

/-- Core of the parse/print round trip: scanning the comma-joined
rendering of `xs` followed by a `]`, starting inside an open frame `c`
above an open frame `d`, closes the frame with contents `c ++ xs` and
appends it to `d`. -/
theorem runStar : ∀ (n : Nat) (xs c d rest : List Item),
    itemSizeL xs ≤ n →
    runBytes ⟨.List c :: .List d :: rest, 0, 0⟩ (printElems xs ++ [93]) =
      .ok ⟨.List (d ++ [.List (c ++ xs)]) :: rest, 0, 0⟩ := by
  intro n
  induction n using Nat.strong_induction_on with
  | _ n ih =>
    intro xs c d rest hn
    match xs with
    | [] =>
      simp only [printElems, List.nil_append]
      rw [runBytes_cons_ok _ _ _ _ (pstep_rb c d rest)]
      simp [runBytes]
    | [Item.Integer m] =>
      simp only [printElems, print_item]
      rw [runBytes_append_ok _ _ _ _ (runBytes_decDigits m _)]
      rw [runBytes_cons_ok _ _ _ _ (pstep_rb_flush c d rest _ _
        (by have := decDigits_length_pos m; omega))]
      simp [runBytes]
    | [Item.List ys] =>
      have hys : itemSizeL ys < n := by
        simp only [itemSizeL, itemSize] at hn; omega
      simp only [printElems, print_item]
      simp only [List.cons_append]
      rw [runBytes_cons_ok _ _ _ _ (pstep_lb _ _)]
      rw [runBytes_append_ok _ _ _ _
        (ih (itemSizeL ys) hys ys [] c (.List d :: rest) (le_refl _))]
      rw [runBytes_cons_ok _ _ _ _ (pstep_rb _ d rest)]
      simp [runBytes]
    | Item.Integer m :: y :: tail =>
      have htail : itemSizeL (y :: tail) < n := by
        simp only [itemSizeL, itemSize] at hn ⊢
        have := itemSize_pos y
        omega
      simp only [printElems, print_item]
      rw [List.append_assoc]
      rw [runBytes_append_ok _ _ _ _ (runBytes_decDigits m _)]
      simp only [List.cons_append]
      rw [runBytes_cons_ok _ _ _ _ (pstep_comma_flush c _ _ _
        (by have := decDigits_length_pos m; omega))]
      have hmid := ih (itemSizeL (y :: tail)) htail (y :: tail)
        (c ++ [Item.Integer (0 * 10 ^ (decDigits m).length + m)]) d rest (le_refl _)
      rw [hmid]
      simp [List.append_assoc]
    | Item.List ys :: y :: tail =>
      have hys : itemSizeL ys < n := by
        simp only [itemSizeL, itemSize] at hn
        have := itemSize_pos y
        omega
      have htail : itemSizeL (y :: tail) < n := by
        simp only [itemSizeL, itemSize] at hn ⊢
        omega
      simp only [printElems, print_item]
      simp only [List.cons_append]
      rw [runBytes_cons_ok _ _ _ _ (pstep_lb _ _)]
      rw [List.append_assoc]
      rw [runBytes_append_ok _ _ _ _
        (ih (itemSizeL ys) hys ys [] c (.List d :: rest) (le_refl _))]
      simp only [List.nil_append, List.cons_append]
      rw [runBytes_cons_ok _ _ _ _ (pstep_comma _)]
      have hmid := ih (itemSizeL (y :: tail)) htail (y :: tail)
        (c ++ [Item.List ys]) d rest (le_refl _)
      rw [hmid]
      simp [List.append_assoc]

/-- Parsing the serialized form of any `List`-variant value succeeds and
yields exactly the sentinel frame wrapping that value. -/
theorem parse_print (xs : List Item) :
    processLine (print_item (.List xs)) = .ok (.List [.List xs]) := by
  unfold processLine
  have h0 : print_item (Item.List xs) = 91 :: (printElems xs ++ [93]) := by
    simp [print_item]
  rw [h0]
  simp only [pInit]
  rw [runBytes_cons_ok _ _ _ _ (pstep_lb _ _)]
  rw [runStar (itemSizeL xs) xs [] [] [] (le_refl _)]
  simp [finishLine]

/-- C1 (amended): for every line encoding a single top-level bracketed
list, the parser produces exactly one `List` value, namely the sentinel
frame pushed at line start, whose sole element is the nested list the
line encodes; this wrapper (not the bare encoded list) is what remains
on the stack and what `load` stores as the pair's `left`. -/
theorem claimC1 (xs : List Item) :
    processLine (print_item (.List xs)) = .ok (.List [.List xs]) ∧
    loadLines [print_item (.List xs)] = .ok [⟨.List [.List xs], .List []⟩] := by
  refine ⟨parse_print xs, ?_⟩
  simp [loadLines, loadGo, parse_print xs]

/-- C1 counterexample: parsing "[1,2]" (bytes 91,49,44,50,93) yields the
sentinel-wrapped `List([List([Integer(1),Integer(2)])])`, which is not
the claimed `List([Integer(1),Integer(2)])`. -/
theorem claimC1_cex :
    processLine [91, 49, 44, 50, 93] =
        .ok (.List [.List [.Integer 1, .Integer 2]]) ∧
    Item.List [.List [.Integer 1, .Integer 2]] ≠ .List [.Integer 1, .Integer 2] :=
  ⟨rfl, by simp⟩

/-- C2: round-trip identity — parsing any syntactically valid line (the
serialization of a `List`-variant value; the grammar has no redundant
encodings, so these are exactly the valid lines) succeeds, and printing
the stored value the way `print_problem` does (via `print_list`, which
strips the sentinel wrapper) reproduces the line byte-for-byte. -/
theorem claimC2 (xs : List Item) :
    ∃ out, processLine (print_item (.List xs)) = .ok out ∧
      print_list out = some (print_item (.List xs)) := by
  refine ⟨.List [.List xs], parse_print xs, ?_⟩
  simp [print_list, printElems]

/-- C3: `cmp` on two `List` values compares elements at increasing
0-based index up to the shorter length; the first index whose elements
are not `Equal` decides; if all compared elements are `Equal` the
lengths are compared (shorter is `Less`, equal lengths are `Equal`);
in particular a strict element-wise prefix is `Less`. -/
theorem claimC3 (xs ys : List Item) (i : Nat) (d : Item) :
    (i < xs.length → i < ys.length →
      (∀ j, j < i → Item.cmp (xs.getD j d) (ys.getD j d) = .eq) →
      Item.cmp (xs.getD i d) (ys.getD i d) ≠ .eq →
      Item.cmp (.List xs) (.List ys) = Item.cmp (xs.getD i d) (ys.getD i d)) ∧
    ((∀ j, j < min xs.length ys.length →
        Item.cmp (xs.getD j d) (ys.getD j d) = .eq) →
      Item.cmp (.List xs) (.List ys) = natCmp xs.length ys.length) ∧
    (xs.length < ys.length →
      (∀ j, j < xs.length → xs.getD j d = ys.getD j d) →
      Item.cmp (.List xs) (.List ys) = .lt) := by
  refine ⟨?_, ?_, ?_⟩
  · intro h1 h2 h3 h4
    simp only [Item.cmp]
    exact cmpLists_index xs ys i d h1 h2 h3 h4
  · intro h
    simp only [Item.cmp]
    exact cmpLists_allEq xs ys d h
  · intro hlen hpre
    simp only [Item.cmp]
    rw [cmpLists_allEq xs ys d (fun j hj => by
      rw [hpre j (by omega)]
      exact itemCmp_self _)]
    simp [natCmp, hlen]

/-- Witness for C3: `[1,3]` vs `[1,5]` decided at index 1, and the
strict prefix `[1]` of `[1,5]` is `Less`. -/
theorem claimC3_witness :
    Item.cmp (.List [.Integer 1, .Integer 3]) (.List [.Integer 1, .Integer 5]) =
      Item.cmp ([Item.Integer 1, Item.Integer 3].getD 1 (.Integer 0))
        ([Item.Integer 1, Item.Integer 5].getD 1 (.Integer 0)) ∧
    Item.cmp (.List [.Integer 1]) (.List [.Integer 1, .Integer 5]) = .lt := by
  constructor
  · exact (claimC3 [Item.Integer 1, Item.Integer 3]
      [Item.Integer 1, Item.Integer 5] 1 (.Integer 0)).1
      (by simp) (by simp)
      (fun j hj => by
        have hj0 : j = 0 := by omega
        subst hj0
        simp [Item.cmp, natCmp])
      (by simp [Item.cmp, natCmp])
  · exact (claimC3 [Item.Integer 1] [Item.Integer 1, Item.Integer 5]
      0 (.Integer 0)).2.2
      (by simp)
      (fun j hj => by
        have hj0 : j = 0 := by simp at hj; omega
        subst hj0
        simp)

/-- C4: integer/list promotion equivalence — `cmp(Integer(n),
List([Integer(n)])) = Equal` for every `n`, and a lone integer on
either side compares exactly as its singleton-list promotion. -/
theorem claimC4 (n x y : Nat) (xs ys : List Item) :
    Item.cmp (.Integer n) (.List [.Integer n]) = .eq ∧
    Item.cmp (.Integer x) (.List ys) = Item.cmp (.List [.Integer x]) (.List ys) ∧
    Item.cmp (.List xs) (.Integer y) = Item.cmp (.List xs) (.List [.Integer y]) := by
  refine ⟨?_, cmp_promoteL x ys, cmp_promoteR xs y⟩
  simp [Item.cmp, cmpLists, natCmp]

/-- C5: totality and antisymmetry — `cmp` always returns exactly one of
`lt`, `eq`, `gt`, and swapping the arguments inverts the verdict. -/
theorem claimC5 (a b : Item) :
    (Item.cmp a b = .lt ∨ Item.cmp a b = .eq ∨ Item.cmp a b = .gt) ∧
    ¬(Item.cmp a b = .lt ∧ Item.cmp a b = .eq) ∧
    ¬(Item.cmp a b = .lt ∧ Item.cmp a b = .gt) ∧
    ¬(Item.cmp a b = .eq ∧ Item.cmp a b = .gt) ∧
    (Item.cmp a b = .lt ↔ Item.cmp b a = .gt) ∧
    (Item.cmp a b = .eq ↔ Item.cmp b a = .eq) := by
  have hs := itemCmp_swap a b
  refine ⟨?_, ?_, ?_, ?_, ?_, ?_⟩
  · cases Item.cmp a b <;> simp
  · cases Item.cmp a b <;> simp
  · cases Item.cmp a b <;> simp
  · cases Item.cmp a b <;> simp
  · rw [hs]; cases Item.cmp b a <;> simp [Ordering.swap]
  · rw [hs]; cases Item.cmp b a <;> simp [Ordering.swap]

/-- A byte outside the accepted set fails immediately, whatever the
state: the catch-all arm of the first match asserts `digit < 10`. -/
theorem pstep_notAllowed (st : PState) (ch : Nat) (h : allowedByte ch = false) :
    pstep st ch = .error .badByte := by
  simp only [allowedByte, Bool.or_eq_false_iff, Bool.and_eq_false_iff,
    decide_eq_false_iff_not] at h
  unfold pstep
  rw [if_neg (by omega), if_neg (by omega), if_neg (by omega)]

theorem runBytes_hasBad : ∀ (bytes : List Nat) (st : PState),
    (∃ ch ∈ bytes, allowedByte ch = false) →
    ∃ e, runBytes st bytes = .error e := by
  intro bytes
  induction bytes with
  | nil => intro st h; simp at h
  | cons b bs ihb =>
    intro st h
    by_cases hb : allowedByte b = false
    · exact ⟨.badByte, by simp [runBytes, pstep_notAllowed st b hb]⟩
    · have hbs : ∃ ch ∈ bs, allowedByte ch = false := by
        rcases h with ⟨ch, hch, hf⟩
        rcases List.mem_cons.mp hch with hc | hc
        · subst hc; exact absurd hf hb
        · exact ⟨ch, hc, hf⟩
      cases hp : pstep st b with
      | error e => exact ⟨e, by simp [runBytes, hp]⟩
      | ok st1 =>
        rcases ihb st1 hbs with ⟨e, he⟩
        exact ⟨e, by simp [runBytes, hp, he]⟩

/-- A digit immediately followed by `[` fails: the digit makes the
accumulator non-empty, and the `[` asserts it is empty. -/
theorem runBytes_digitBracket : ∀ (p : List Nat) (st : PState) (dg : Nat)
    (q : List Nat), 48 ≤ dg → dg ≤ 57 →
    ∃ e, runBytes st (p ++ dg :: 91 :: q) = .error e := by
  intro p
  induction p with
  | nil =>
    intro st dg q h1 h2
    rw [List.nil_append,
      runBytes_cons_ok _ _ _ _ (pstep_digit st dg h1 h2)]
    refine ⟨.digitBeforeBracket, ?_⟩
    have hp : pstep ⟨st.stack, st.integer_bytes + 1,
        st.integer_value * 10 + (dg - 48)⟩ 91 = .error .digitBeforeBracket := by
      simp [pstep]
    simp [runBytes, hp]
  | cons a p ihp =>
    intro st dg q h1 h2
    cases hp : pstep st a with
    | error e => exact ⟨e, by simp [runBytes, hp]⟩
    | ok st1 =>
      rcases ihp st1 dg q h1 h2 with ⟨e, he⟩
      exact ⟨e, by simp [runBytes, hp, he]⟩

theorem flushInt_ok_stackLen (st stf : PState) (h : flushInt st = .ok stf) :
    stf.stack.length = st.stack.length := by
  unfold flushInt at h
  split at h
  · match hs : st.stack with
    | [] => rw [hs] at h; exact absurd h (by simp)
    | .Integer _ :: _ => rw [hs] at h; exact absurd h (by simp)
    | .List x :: rest =>
      rw [hs] at h
      simp only [Except.ok.injEq] at h
      rw [← h]
      simp
  · simp only [Except.ok.injEq] at h
    rw [← h]

theorem closeBracket_ok_stackLen (st stc : PState)
    (h : closeBracket st = .ok stc) :
    stc.stack.length + 1 = st.stack.length := by
  unfold closeBracket at h
  match hs : st.stack with
  | [] => rw [hs] at h; exact absurd h (by simp)
  | child :: [] => rw [hs] at h; exact absurd h (by simp)
  | child :: .Integer _ :: _ => rw [hs] at h; exact absurd h (by simp)
  | child :: .List x :: rest2 =>
    rw [hs] at h
    simp only [Except.ok.injEq] at h
    rw [← h]
    simp

/-- Bracket accounting for one accepted byte: a `]` pops one frame, a
`[` pushes one, everything else leaves the depth unchanged. -/
theorem pstep_ok_stackLen (st : PState) (ch : Nat) (st1 : PState)
    (h : pstep st ch = .ok st1) :
    st1.stack.length + (if ch = 93 then 1 else 0) =
      st.stack.length + (if ch = 91 then 1 else 0) := by
  unfold pstep at h
  split at h
  · rename_i hc
    cases hf : flushInt st with
    | error e =>
      rw [hf] at h
      exact absurd h (by simp)
    | ok stf =>
      rw [hf] at h
      simp only [] at h
      have hlf := flushInt_ok_stackLen st stf hf
      split at h
      · rename_i h93
        have hlc := closeBracket_ok_stackLen stf st1 h
        rw [if_pos h93, if_neg (by omega)]
        omega
      · rename_i h93
        simp only [Except.ok.injEq] at h
        rw [if_neg h93, if_neg (by omega), ← h]
        omega
  · split at h
    · rename_i hc h91
      split at h
      · simp only [Except.ok.injEq] at h
        rw [if_neg (by omega), if_pos h91, ← h]
        simp
      · exact absurd h (by simp)
    · split at h
      · rename_i hc h91 hdg
        simp only [Except.ok.injEq] at h
        rw [if_neg (by omega), if_neg h91, ← h]
      · exact absurd h (by simp)

/-- Bracket accounting over a whole scan. -/
theorem runBytes_ok_stackLen : ∀ (bytes : List Nat) (st st1 : PState),
    runBytes st bytes = .ok st1 →
    st1.stack.length + bytes.count 93 = st.stack.length + bytes.count 91 := by
  intro bytes
  induction bytes with
  | nil =>
    intro st st1 h
    simp only [runBytes, Except.ok.injEq] at h
    rw [← h]
    simp
  | cons b bs ihb =>
    intro st st1 h
    simp only [runBytes] at h
    cases hp : pstep st b with
    | error e => rw [hp] at h; exact absurd h (by simp)
    | ok stm =>
      rw [hp] at h
      have h1 := pstep_ok_stackLen st b stm hp
      have h2 := ihb stm st1 h
      simp only [List.count_cons]
      by_cases hb93 : b = 93 <;> by_cases hb91 : b = 91 <;>
        simp [hb93, hb91] at h1 ⊢ <;> omega

/-- A line whose `]` and `[` counts differ can never pass the final
`assert_eq!(stack.len(), 1)`: it either dies during the scan or ends at
the wrong depth. -/
theorem processLine_unbalanced (line : List Nat)
    (h : line.count 93 ≠ line.count 91) :
    ∃ e, processLine line = .error e := by
  cases hr : runBytes pInit line with
  | error e => exact ⟨e, by simp [processLine, hr]⟩
  | ok fin =>
    have hlen := runBytes_ok_stackLen line pInit fin hr
    have hne : fin.stack.length ≠ 1 := by
      simp only [pInit] at hlen
      simp only [List.length_cons, List.length_nil] at hlen
      omega
    refine ⟨.badDepth, ?_⟩
    simp only [processLine, hr, finishLine]
    match hs : fin.stack with
    | [] => rfl
    | [a] => rw [hs] at hne; simp at hne
    | a :: b :: l => rfl

/-- Any line-level fatal condition aborts the whole load: no `Problem`
is returned. -/
theorem loadGo_line_error : ∀ (rest : List (List Nat)) (p : List Pair)
    (ln : Nat) (l : List Nat),
    l ∈ rest → (∃ e, processLine l = .error e) →
    ∃ e, loadGo p ln rest = .error e := by
  intro rest
  induction rest with
  | nil => intro p ln l hl; simp at hl
  | cons a as ihr =>
    intro p ln l hl hle
    cases hpa : processLine a with
    | error e => exact ⟨e, by simp [loadGo, hpa]⟩
    | ok v =>
      have hlas : l ∈ as := by
        rcases List.mem_cons.mp hl with hc | hc
        · subst hc
          rcases hle with ⟨e, he⟩
          rw [hpa] at he
          exact absurd he (by simp)
        · exact hc
      have h3 : (ln + 1) % 3 = 0 ∨ (ln + 1) % 3 = 1 ∨ (ln + 1) % 3 = 2 := by
        omega
      rcases h3 with h3 | h3 | h3
      · rcases ihr p (ln + 1) l hlas hle with ⟨e, he⟩
        exact ⟨e, by simp [loadGo, hpa, h3, he]⟩
      · rcases ihr (p ++ [⟨v, .List []⟩]) (ln + 1) l hlas hle with ⟨e, he⟩
        exact ⟨e, by simp [loadGo, hpa, h3, he]⟩
      · cases hsl : setLastRight p v with
        | none => exact ⟨.noPair, by simp [loadGo, hpa, h3, hsl]⟩
        | some p2 =>
          rcases ihr p2 (ln + 1) l hlas hle with ⟨e, he⟩
          exact ⟨e, by simp [loadGo, hpa, h3, hsl, he]⟩

/-- Scanning digit bytes only accumulates; the stack is untouched. -/
theorem runBytes_digitsOnly : ∀ (bytes : List Nat) (st : PState),
    (∀ ch ∈ bytes, 48 ≤ ch ∧ ch ≤ 57) →
    ∃ b v, runBytes st bytes = .ok ⟨st.stack, b, v⟩ := by
  intro bytes
  induction bytes with
  | nil =>
    intro st hd
    exact ⟨st.integer_bytes, st.integer_value, rfl⟩
  | cons a as iha =>
    intro st hd
    have ha := hd a (by simp)
    rw [runBytes_cons_ok _ _ _ _ (pstep_digit st a ha.1 ha.2)]
    exact iha _ (fun ch hch => hd ch (by simp [hch]))

/-- A line made of digits only (a bare top-level integer) is accepted:
the digits are never flushed and the line parses as the empty sentinel
list. -/
theorem processLine_digitsOnly (line : List Nat)
    (h : ∀ ch ∈ line, 48 ≤ ch ∧ ch ≤ 57) :
    processLine line = .ok (.List []) := by
  rcases runBytes_digitsOnly line pInit h with ⟨b, v, hr⟩
  simp only [pInit] at hr
  simp [processLine, pInit, hr, finishLine]

/-- C6 (amended): malformed input is a fatal parse failure with no
partial result — any byte outside brackets, comma, end-of-line and
digits; a digit immediately preceding a `[`; mismatched brackets
(differing `]` / `[` counts, covering a stray `]` and a wrong final
stack depth); and any such line failure aborts `load` with no Problem.
However, contrary to the original claim, a bare integer at top level
does not fail: a digits-only line is silently accepted, its digits are
discarded, and it parses as the empty sentinel list. -/
theorem claimC6 (line : List Nat) (lines : List (List Nat)) :
    ((∃ ch ∈ line, allowedByte ch = false) →
      ∃ e, processLine line = .error e) ∧
    ((∃ p dg q, line = p ++ dg :: 91 :: q ∧ 48 ≤ dg ∧ dg ≤ 57) →
      ∃ e, processLine line = .error e) ∧
    (line.count 93 ≠ line.count 91 → ∃ e, processLine line = .error e) ∧
    (line ∈ lines → (∃ e, processLine line = .error e) →
      ∃ e, loadLines lines = .error e) ∧
    ((∀ ch ∈ line, 48 ≤ ch ∧ ch ≤ 57) → processLine line = .ok (.List [])) := by
  refine ⟨?_, ?_, processLine_unbalanced line, ?_, processLine_digitsOnly line⟩
  · intro hbad
    rcases runBytes_hasBad line pInit hbad with ⟨e, he⟩
    exact ⟨e, by simp [processLine, he]⟩
  · rintro ⟨p, dg, q, hline, h1, h2⟩
    subst hline
    rcases runBytes_digitBracket p pInit dg q h1 h2 with ⟨e, he⟩
    exact ⟨e, by simp [processLine, he]⟩
  · exact loadGo_line_error lines [] 0 line

/-- Witness for C6: the bad byte `x` (120), the digit-then-bracket line
"1[]", the stray bracket "]", a failing one-line load, and the accepted
bare-integer line "5". -/
theorem claimC6_witness :
    (∃ e, processLine [120] = .error e) ∧
    (∃ e, processLine [49, 91, 93] = .error e) ∧
    (∃ e, processLine [93] = .error e) ∧
    (∃ e, loadLines [[120]] = .error e) ∧
    processLine [53] = .ok (.List []) := by
  refine ⟨?_, ?_, ?_, ?_, ?_⟩
  · exact (claimC6 [120] []).1 ⟨120, by simp, rfl⟩
  · exact (claimC6 [49, 91, 93] []).2.1 ⟨[], 49, [93], rfl, by omega, by omega⟩
  · exact (claimC6 [93] []).2.2.1 (by simp)
  · exact (claimC6 [120] [[120]]).2.2.2.1 (by simp)
      ((claimC6 [120] []).1 ⟨120, by simp, rfl⟩)
  · exact (claimC6 [53] []).2.2.2.2
      (by intro ch hch; simp at hch; omega)

/-- C6 counterexample: the bare-integer line "5" (byte 53, no outer
brackets) does not make loading fail — `load` returns a Problem whose
pair has the empty list as `left`. -/
theorem claimC6_cex : loadLines [[53]] = .ok [⟨.List [], .List []⟩] := rfl

/-- If every stack frame is a `List`, a flush keeps it that way and
cannot hit the `Integer`-frame panic arm. -/
theorem flushInt_inv (st : PState)
    (hall : ∀ it ∈ st.stack, it.isList = true) :
    (∀ stf, flushInt st = .ok stf → ∀ it ∈ stf.stack, it.isList = true) ∧
    flushInt st ≠ .error .integerFrame := by
  unfold flushInt
  split
  · match hs : st.stack with
    | [] => exact ⟨fun stf h => absurd h (by simp), by simp⟩
    | .Integer m :: rest =>
      have := hall (.Integer m) (by rw [hs]; simp)
      simp [Item.isList] at this
    | .List x :: rest =>
      refine ⟨fun stf h => ?_, by simp⟩
      simp only [Except.ok.injEq] at h
      rw [← h]
      intro it hit
      rcases List.mem_cons.mp hit with hc | hc
      · subst hc; simp [Item.isList]
      · exact hall it (by rw [hs]; exact List.mem_cons_of_mem _ hc)
  · refine ⟨fun stf h => ?_, by simp⟩
    simp only [Except.ok.injEq] at h
    rw [← h]
    exact hall

/-- If every stack frame is a `List`, popping a closed frame keeps it
that way and cannot hit the `Integer`-frame panic arm. -/
theorem closeBracket_inv (st : PState)
    (hall : ∀ it ∈ st.stack, it.isList = true) :
    (∀ stc, closeBracket st = .ok stc → ∀ it ∈ stc.stack, it.isList = true) ∧
    closeBracket st ≠ .error .integerFrame := by
  unfold closeBracket
  match hs : st.stack with
  | [] => exact ⟨fun stc h => absurd h (by simp), by simp⟩
  | child :: [] => exact ⟨fun stc h => absurd h (by simp), by simp⟩
  | child :: .Integer m :: rest =>
    have := hall (.Integer m) (by rw [hs]; simp)
    simp [Item.isList] at this
  | child :: .List x :: rest2 =>
    refine ⟨fun stc h => ?_, by simp⟩
    simp only [Except.ok.injEq] at h
    rw [← h]
    intro it hit
    rcases List.mem_cons.mp hit with hc | hc
    · subst hc; simp [Item.isList]
    · exact hall it (by rw [hs]; simp [hc])

/-- One scan step preserves the all-`List` stack invariant. -/
theorem pstep_allList (st : PState) (ch : Nat) (st1 : PState)
    (hall : ∀ it ∈ st.stack, it.isList = true) (h : pstep st ch = .ok st1) :
    ∀ it ∈ st1.stack, it.isList = true := by
  unfold pstep at h
  split at h
  · cases hf : flushInt st with
    | error e => rw [hf] at h; exact absurd h (by simp)
    | ok stf =>
      rw [hf] at h
      have hallf := (flushInt_inv st hall).1 stf hf
      have h2 : (if ch = 93 then closeBracket stf else Except.ok stf) =
          .ok st1 := h
      split at h2
      · exact (closeBracket_inv stf hallf).1 st1 h2
      · simp only [Except.ok.injEq] at h2
        rw [← h2]
        exact hallf
  · split at h
    · split at h
      · simp only [Except.ok.injEq] at h
        rw [← h]
        intro it hit
        rcases List.mem_cons.mp hit with hc | hc
        · subst hc; simp [Item.isList]
        · exact hall it hc
      · exact absurd h (by simp)
    · split at h
      · simp only [Except.ok.injEq] at h
        rw [← h]
        exact hall
      · exact absurd h (by simp)

/-- With an all-`List` stack, one scan step never reaches either
`Integer`-frame `panic!()`. -/
theorem pstep_ne_integerFrame (st : PState) (ch : Nat)
    (hall : ∀ it ∈ st.stack, it.isList = true) :
    pstep st ch ≠ .error .integerFrame := by
  intro h
  unfold pstep at h
  split at h
  · cases hf : flushInt st with
    | error e =>
      rw [hf] at h
      have h2 : (Except.error e : Except PErr PState) =
          .error .integerFrame := h
      simp only [Except.error.injEq] at h2
      rw [h2] at hf
      exact (flushInt_inv st hall).2 hf
    | ok stf =>
      rw [hf] at h
      have hallf := (flushInt_inv st hall).1 stf hf
      have h2 : (if ch = 93 then closeBracket stf else Except.ok stf) =
          .error .integerFrame := h
      split at h2
      · exact (closeBracket_inv stf hallf).2 h2
      · exact absurd h2 (by simp)
  · split at h
    · split at h
      · exact absurd h (by simp)
      · exact absurd h (by simp)
    · split at h
      · exact absurd h (by simp)
      · exact absurd h (by simp)

/-- The scan loop preserves the all-`List` stack invariant and never
reaches an `Integer`-frame `panic!()`. -/
theorem runBytes_inv : ∀ (bytes : List Nat) (st : PState),
    (∀ it ∈ st.stack, it.isList = true) →
    (∀ st1, runBytes st bytes = .ok st1 → ∀ it ∈ st1.stack, it.isList = true) ∧
    runBytes st bytes ≠ .error .integerFrame := by
  intro bytes
  induction bytes with
  | nil =>
    intro st hall
    refine ⟨fun st1 h => ?_, by simp [runBytes]⟩
    simp only [runBytes, Except.ok.injEq] at h
    rw [← h]
    exact hall
  | cons b bs ihb =>
    intro st hall
    cases hp : pstep st b with
    | error e =>
      refine ⟨fun st1 h => absurd h (by simp [runBytes, hp]), ?_⟩
      simp only [runBytes, hp]
      intro hc
      simp only [Except.error.injEq] at hc
      rw [hc] at hp
      exact pstep_ne_integerFrame st b hall hp
    | ok stm =>
      have hallm := pstep_allList st b stm hall hp
      refine ⟨fun st1 h => ?_, ?_⟩
      · simp only [runBytes, hp] at h
        exact (ihb stm hallm).1 st1 h
      · simp only [runBytes, hp]
        exact (ihb stm hallm).2

theorem pInit_allList : ∀ it ∈ pInit.stack, it.isList = true := by
  intro it hit
  simp only [pInit] at hit
  simp at hit
  rw [hit]
  simp [Item.isList]

/-- A successfully parsed line value is always a `List` variant. -/
theorem processLine_isList (line : List Nat) (v : Item)
    (h : processLine line = .ok v) : v.isList = true := by
  unfold processLine at h
  cases hr : runBytes pInit line with
  | error e => rw [hr] at h; exact absurd h (by simp)
  | ok fin =>
    rw [hr] at h
    have h2 : finishLine fin = .ok v := h
    unfold finishLine at h2
    split at h2
    · rename_i top heq
      simp only [Except.ok.injEq] at h2
      rw [← h2]
      exact (runBytes_inv line pInit pInit_allList).1 fin hr top (by rw [heq]; simp)
    · exact absurd h2 (by simp)

/-- Line processing never reaches an `Integer`-frame `panic!()`. -/
theorem processLine_ne_integerFrame (line : List Nat) :
    processLine line ≠ .error .integerFrame := by
  unfold processLine
  cases hr : runBytes pInit line with
  | error e =>
    simp only [hr]
    intro hc
    simp only [Except.error.injEq] at hc
    rw [hc] at hr
    exact (runBytes_inv line pInit pInit_allList).2 hr
  | ok fin =>
    simp only [hr]
    unfold finishLine
    split
    · simp
    · simp

/-- The whole load never reaches an `Integer`-frame `panic!()`. -/
theorem loadGo_ne_integerFrame : ∀ (rest : List (List Nat)) (p : List Pair)
    (ln : Nat), loadGo p ln rest ≠ .error .integerFrame := by
  intro rest
  induction rest with
  | nil => intro p ln; simp [loadGo]
  | cons a as ihr =>
    intro p ln
    cases hpa : processLine a with
    | error e =>
      simp only [loadGo, hpa]
      intro hc
      simp only [Except.error.injEq] at hc
      rw [hc] at hpa
      exact processLine_ne_integerFrame a hpa
    | ok v =>
      simp only [loadGo, hpa]
      have h3 : (ln + 1) % 3 = 0 ∨ (ln + 1) % 3 = 1 ∨ (ln + 1) % 3 = 2 := by
        omega
      rcases h3 with h3 | h3 | h3 <;> rw [h3]
      · exact ihr p (ln + 1)
      · exact ihr (p ++ [⟨v, .List []⟩]) (ln + 1)
      · cases hsl : setLastRight p v with
        | none => simp
        | some p2 => exact ihr p2 (ln + 1)

/-- Updating the last pair's `right` with a `List` value keeps every
stored value a `List`. -/
theorem setLastRight_allList : ∀ (p : List Pair) (v : Item) (p2 : List Pair),
    (∀ pr ∈ p, pr.left.isList = true ∧ pr.right.isList = true) →
    v.isList = true → setLastRight p v = some p2 →
    ∀ pr ∈ p2, pr.left.isList = true ∧ pr.right.isList = true := by
  intro p
  induction p with
  | nil => intro v p2 hall hv h; simp [setLastRight] at h
  | cons q r ihp =>
    intro v p2 hall hv h
    cases r with
    | nil =>
      simp only [setLastRight, Option.some.injEq] at h
      rw [← h]
      intro pr hpr
      simp at hpr
      rw [hpr]
      exact ⟨(hall q (by simp)).1, hv⟩
    | cons r2 rs =>
      simp only [setLastRight] at h
      cases hm : setLastRight (r2 :: rs) v with
      | none => rw [hm] at h; exact absurd h (by simp)
      | some p3 =>
        rw [hm] at h
        simp at h
        rw [← h]
        intro pr hpr
        rcases List.mem_cons.mp hpr with hc | hc
        · rw [hc]; exact hall q (by simp)
        · exact ihp v p3 (fun w hw => hall w (by simp [hw])) hv hm pr hc

/-- Everything `loadGo` ever stores in a pair is a `List` variant. -/
theorem loadGo_allList : ∀ (rest : List (List Nat)) (p : List Pair)
    (ln : Nat) (prob : List Pair),
    (∀ pr ∈ p, pr.left.isList = true ∧ pr.right.isList = true) →
    loadGo p ln rest = .ok prob →
    ∀ pr ∈ prob, pr.left.isList = true ∧ pr.right.isList = true := by
  intro rest
  induction rest with
  | nil =>
    intro p ln prob hall h
    simp only [loadGo, Except.ok.injEq] at h
    rw [← h]
    exact hall
  | cons a as ihr =>
    intro p ln prob hall h
    cases hpa : processLine a with
    | error e => rw [loadGo, hpa] at h; exact absurd h (by simp)
    | ok v =>
      have hv := processLine_isList a v hpa
      rw [loadGo, hpa] at h
      have h3 : (ln + 1) % 3 = 0 ∨ (ln + 1) % 3 = 1 ∨ (ln + 1) % 3 = 2 := by
        omega
      rcases h3 with h3 | h3 | h3 <;> rw [h3] at h
      · have h2 : loadGo p (ln + 1) as = .ok prob := h
        exact ihr p (ln + 1) prob hall h2
      · have h2 : loadGo (p ++ [⟨v, .List []⟩]) (ln + 1) as = .ok prob := h
        refine ihr (p ++ [⟨v, .List []⟩]) (ln + 1) prob ?_ h2
        intro pr hpr
        rcases List.mem_append.mp hpr with hc | hc
        · exact hall pr hc
        · simp at hc
          rw [hc]
          exact ⟨hv, by simp [Item.isList]⟩
      · have h2 : (match setLastRight p v with
            | none => Except.error PErr.noPair
            | some p2 => loadGo p2 (ln + 1) as) = .ok prob := h
        cases hsl : setLastRight p v with
        | none => rw [hsl] at h2; exact absurd h2 (by simp)
        | some p2 =>
          rw [hsl] at h2
          exact ihr p2 (ln + 1) prob (setLastRight_allList p v p2 hall hv hsl) h2

/-- C8: at every point of the scan (any byte sequence processed from
the line-start state), every frame on the explicit parse stack is a
`List` variant, so the `Integer` match arms that `panic!()` (in the
integer-flush step and the bracket-pop step) are unreachable for every
input, both per line and across a whole load. -/
theorem claimC8 (p : List Nat) (lines : List (List Nat)) (st : PState) :
    (runBytes pInit p = .ok st → ∀ it ∈ st.stack, it.isList = true) ∧
    runBytes pInit p ≠ .error .integerFrame ∧
    loadLines lines ≠ .error .integerFrame :=
  ⟨fun h => (runBytes_inv p pInit pInit_allList).1 st h,
   (runBytes_inv p pInit pInit_allList).2,
   loadGo_ne_integerFrame lines [] 0⟩

/-- Witness for C8: after scanning "[", the stack holds two `List`
frames; no `Integer`-frame panic on "[" or on loading "[]". -/
theorem claimC8_witness :
    (∀ it ∈ (PState.mk [Item.List [], Item.List []] 0 0).stack,
      it.isList = true) ∧
    runBytes pInit [91] ≠ .error .integerFrame ∧
    loadLines [[91, 93]] ≠ .error .integerFrame :=
  ⟨(claimC8 [91] [[91, 93]] ⟨[Item.List [], Item.List []], 0, 0⟩).1 rfl,
   (claimC8 [91] [[91, 93]] pInit).2.1,
   (claimC8 [91] [[91, 93]] pInit).2.2⟩

/-- C9: every value stored in a Problem returned by `load` (each pair's
`left` and `right`) is a `List` variant, never an `Integer`;
consequently `print_list` succeeds on it (its `Integer` panic arm is
unreachable when printing any loaded Problem). -/
theorem claimC9 (lines : List (List Nat)) (prob : List Pair)
    (h : loadLines lines = .ok prob) :
    ∀ pr ∈ prob, pr.left.isList = true ∧ pr.right.isList = true ∧
      (∃ s, print_list pr.left = some s) ∧
      (∃ s, print_list pr.right = some s) := by
  have hall := loadGo_allList lines [] 0 prob (by simp) h
  intro pr hpr
  have h1 := (hall pr hpr).1
  have h2 := (hall pr hpr).2
  refine ⟨h1, h2, ?_, ?_⟩
  · cases hl : pr.left with
    | Integer m => rw [hl] at h1; simp [Item.isList] at h1
    | List xs => exact ⟨printElems xs, by simp [print_list]⟩
  · cases hl : pr.right with
    | Integer m => rw [hl] at h2; simp [Item.isList] at h2
    | List xs => exact ⟨printElems xs, by simp [print_list]⟩

/-- Witness for C9: the Problem loaded from the single line "[]". -/
theorem claimC9_witness :
    (⟨.List [.List []], .List []⟩ : Pair).left.isList = true ∧
    (⟨.List [.List []], .List []⟩ : Pair).right.isList = true ∧
    (∃ s, print_list (⟨.List [.List []], .List []⟩ : Pair).left = some s) ∧
    (∃ s, print_list (⟨.List [.List []], .List []⟩ : Pair).right = some s) :=
  claimC9 [[91, 93]] [⟨.List [.List []], .List []⟩] rfl
    ⟨.List [.List []], .List []⟩ (by simp)

/-- Two line sequences that agree except on third-lines-of-cycles
(positions where `line_number % 3 = 0`), and whose third lines all
parse successfully. -/
def thirdEquiv : Nat → List (List Nat) → List (List Nat) → Prop
  | _, [], [] => True
  | ln, a :: as, b :: bs =>
    (if (ln + 1) % 3 = 0 then
        (∃ va, processLine a = .ok va) ∧ (∃ vb, processLine b = .ok vb)
      else a = b) ∧ thirdEquiv (ln + 1) as bs
  | _, _, _ => False

theorem loadGo_thirdEquiv : ∀ (l1 l2 : List (List Nat)) (p : List Pair)
    (ln : Nat), thirdEquiv ln l1 l2 → loadGo p ln l1 = loadGo p ln l2 := by
  intro l1
  induction l1 with
  | nil =>
    intro l2 p ln h
    cases l2 with
    | nil => rfl
    | cons b bs => simp [thirdEquiv] at h
  | cons a as ih1 =>
    intro l2 p ln h
    cases l2 with
    | nil => simp [thirdEquiv] at h
    | cons b bs =>
      simp only [thirdEquiv] at h
      obtain ⟨hh, ht⟩ := h
      by_cases h0 : (ln + 1) % 3 = 0
      · rw [if_pos h0] at hh
        obtain ⟨⟨va, hva⟩, ⟨vb, hvb⟩⟩ := hh
        simp only [loadGo, hva, hvb, h0]
        exact ih1 bs p (ln + 1) ht
      · rw [if_neg h0] at hh
        subst hh
        cases hpa : processLine a with
        | error e => simp [loadGo, hpa]
        | ok v =>
          simp only [loadGo, hpa]
          have h3 : (ln + 1) % 3 = 1 ∨ (ln + 1) % 3 = 2 := by omega
          rcases h3 with h3 | h3 <;> rw [h3]
          · exact ih1 bs (p ++ [⟨v, .List []⟩]) (ln + 1) ht
          · cases hsl : setLastRight p v with
            | none => rfl
            | some p2 => exact ih1 bs p2 (ln + 1) ht

/-- C7 (amended): the third line of every 3-line cycle is parsed — so it
must be syntactically well-formed, its content is validated like any
other line — but its parsed value is discarded: two inputs that differ
only in the contents of their third lines, all of which parse
successfully, load to identical Problems. -/
theorem claimC7 (l1 l2 : List (List Nat)) (h : thirdEquiv 0 l1 l2) :
    loadLines l1 = loadLines l2 :=
  loadGo_thirdEquiv l1 l2 [] 0 h

/-- Witness for C7: third lines "" and "[]" differ but both parse; the
two loads agree. -/
theorem claimC7_witness :
    thirdEquiv 0 [[91, 93], [91, 93], []] [[91, 93], [91, 93], [91, 93]] ∧
    loadLines [[91, 93], [91, 93], []] =
      loadLines [[91, 93], [91, 93], [91, 93]] := by
  have he : thirdEquiv 0 [[91, 93], [91, 93], []]
      [[91, 93], [91, 93], [91, 93]] := by
    simp only [thirdEquiv]
    refine ⟨by norm_num, by norm_num, ?_, trivial⟩
    rw [if_pos (by norm_num)]
    exact ⟨⟨.List [], rfl⟩, ⟨.List [.List []], rfl⟩⟩
  exact ⟨he, claimC7 _ _ he⟩

/-- C7 counterexample: two inputs differing only in the third line
("" versus the invalid byte "x"): the first loads, the second fails, so
load can fail because of third-line content and the results differ. -/
theorem claimC7_cex :
    loadLines [[91, 93], [91, 93], []] ≠ loadLines [[91, 93], [91, 93], [120]] := by
  have h1 : loadLines [[91, 93], [91, 93], []] =
      .ok [⟨.List [.List []], .List [.List []]⟩] := rfl
  have h2 : loadLines [[91, 93], [91, 93], [120]] = .error .badByte := rfl
  rw [h1, h2]
  simp

theorem loadGo_last : ∀ (rest : List (List Nat)) (p : List Pair) (ln : Nat)
    (prob : List Pair), rest ≠ [] → (ln + rest.length) % 3 = 1 →
    loadGo p ln rest = .ok prob →
    ∃ l v, rest.getLast? = some l ∧ processLine l = .ok v ∧
      prob.getLast? = some ⟨v, .List []⟩ := by
  intro rest
  induction rest with
  | nil => intro p ln prob hne; exact absurd rfl hne
  | cons a as ihr =>
    intro p ln prob hne hm h
    cases as with
    | nil =>
      simp only [List.length_cons, List.length_nil] at hm
      have hm1 : (ln + 1) % 3 = 1 := by omega
      cases hpa : processLine a with
      | error e => rw [loadGo, hpa] at h; exact absurd h (by simp)
      | ok v =>
        rw [loadGo, hpa, hm1] at h
        have h2 : loadGo (p ++ [⟨v, .List []⟩]) (ln + 1) [] = .ok prob := h
        simp only [loadGo, Except.ok.injEq] at h2
        refine ⟨a, v, rfl, hpa, ?_⟩
        rw [← h2]
        simp
    | cons a2 as2 =>
      cases hpa : processLine a with
      | error e => rw [loadGo, hpa] at h; exact absurd h (by simp)
      | ok v =>
        rw [loadGo, hpa] at h
        have hm2 : (ln + 1 + (a2 :: as2).length) % 3 = 1 := by
          simp only [List.length_cons] at hm ⊢
          omega
        have hgl : (a :: a2 :: as2).getLast? = (a2 :: as2).getLast? := rfl
        have h3 : (ln + 1) % 3 = 0 ∨ (ln + 1) % 3 = 1 ∨ (ln + 1) % 3 = 2 := by
          omega
        rcases h3 with h3 | h3 | h3 <;> rw [h3] at h
        · have h2 : loadGo p (ln + 1) (a2 :: as2) = .ok prob := h
          rcases ihr p (ln + 1) prob (by simp) hm2 h2 with ⟨l, v2, hl, hv, hp⟩
          exact ⟨l, v2, by rw [hgl]; exact hl, hv, hp⟩
        · have h2 : loadGo (p ++ [⟨v, .List []⟩]) (ln + 1) (a2 :: as2) =
              .ok prob := h
          rcases ihr _ (ln + 1) prob (by simp) hm2 h2 with ⟨l, v2, hl, hv, hp⟩
          exact ⟨l, v2, by rw [hgl]; exact hl, hv, hp⟩
        · have h2 : (match setLastRight p v with
              | none => Except.error PErr.noPair
              | some p2 => loadGo p2 (ln + 1) (a2 :: as2)) = .ok prob := h
          cases hsl : setLastRight p v with
          | none => rw [hsl] at h2; exact absurd h2 (by simp)
          | some p2 =>
            rw [hsl] at h2
            rcases ihr p2 (ln + 1) prob (by simp) hm2 h2 with ⟨l, v2, hl, hv, hp⟩
            exact ⟨l, v2, by rw [hgl]; exact hl, hv, hp⟩

/-- C10: if the input ends right after the first line of a 3-line cycle
(line count mod 3 = 1) and loading succeeds, the returned Problem's
last Pair has that line's parsed value as `left` and the empty `List`
placeholder as `right` — the pair is neither dropped nor a failure. -/
theorem claimC10 (lines : List (List Nat)) (prob : List Pair)
    (hlen : lines.length % 3 = 1) (h : loadLines lines = .ok prob) :
    ∃ l v, lines.getLast? = some l ∧ processLine l = .ok v ∧
      prob.getLast? = some ⟨v, .List []⟩ := by
  have hne : lines ≠ [] := by
    intro hc
    rw [hc] at hlen
    simp at hlen
  exact loadGo_last lines [] 0 prob hne (by simpa using hlen) h

/-- Witness for C10: the single-line input "[]". -/
theorem claimC10_witness :
    ∃ l v, ([[91, 93]] : List (List Nat)).getLast? = some l ∧
      processLine l = .ok v ∧
      ([(⟨.List [.List []], .List []⟩ : Pair)] : List Pair).getLast? =
        some ⟨v, .List []⟩ :=
  claimC10 [[91, 93]] [⟨.List [.List []], .List []⟩] rfl rfl
